import Mathlib

/-!
Shallow embedding of `skimage/draw/draw.py` (functions `_ellipse_in_shape`,
`ellipse`, `circle`, `polygon_perimeter`, `set_color`) over exact rational
arithmetic, together with theorems settling the specification claims.

Real-valued quantities of the source (`double` centres, radii, vertex
coordinates, pixel values, alpha) are modelled as `ℚ`; pixel indices as `ℤ`.
`numpy` operations are modelled as follows:
* `np.ceil(x).astype(int)` / `np.floor(x).astype(int)` are `⌈x⌉` / `⌊x⌋`
  (the float produced by `np.ceil` is integral, so `astype`'s truncation is
  the identity on it);
* `np.ogrid[0:float(n)]` is the list `0, 1, …, n-1` (empty when `n ≤ 0`);
* `np.round` is round-half-to-even (`npRound` below);
* fancy-index assignment `img[rr, cc] = vals` first evaluates `vals` against
  the original buffer and then writes position by position, later positions
  overwriting earlier ones (`applyWrites` below).
-/

namespace Skimage

/-- The strict ellipse-interior predicate of `_ellipse_in_shape` (line 21 of
the source): `((row - r)/yradius)^2 + ((col - c)/xradius)^2 < 1`. -/
def inEllipse (r c yradius xradius : ℚ) (p : ℤ × ℤ) : Prop :=
  (((p.1 : ℚ) - r) / yradius) ^ 2 + (((p.2 : ℚ) - c) / xradius) ^ 2 < 1

instance (r c yradius xradius : ℚ) (p : ℤ × ℤ) :
    Decidable (inEllipse r c yradius xradius p) := by
  unfold inEllipse; infer_instance

/-- Membership of a pixel in the rectangle `[0, s.1) × [0, s.2)` — the test
applied by the in-shape coordinate filter. -/
def inShapeI (s : ℤ × ℤ) (p : ℤ × ℤ) : Prop :=
  0 ≤ p.1 ∧ p.1 < s.1 ∧ 0 ≤ p.2 ∧ p.2 < s.2

instance (s p : ℤ × ℤ) : Decidable (inShapeI s p) := by
  unfold inShapeI; infer_instance

/-- Embedding of `_ellipse_in_shape(shape, center, radiuses)`: all grid
points of `[0, shape.1) × [0, shape.2)` whose distance value is `< 1`, in
row-major order (`np.nonzero` order).  When a radius is zero the source's
float division yields `inf`/`nan`, every comparison `distances < 1` is
`False`, and the result is empty; the guard reproduces that. -/
def _ellipse_in_shape (shape : ℤ × ℤ) (center : ℚ × ℚ) (radiuses : ℚ × ℚ) :
    List (ℤ × ℤ) :=
  if radiuses.1 = 0 ∨ radiuses.2 = 0 then []
  else
    (List.range shape.1.toNat).flatMap (fun (i : ℕ) =>
      (List.range shape.2.toNat).filterMap (fun (j : ℕ) =>
        if inEllipse center.1 center.2 radiuses.1 radiuses.2 ((i : ℤ), (j : ℤ))
        then some ((i : ℤ), (j : ℤ)) else none))

/-- Embedding of `ellipse(r, c, yradius, xradius, shape=None)` (source lines
25–87), producing the returned `(rr, cc)` as a list of pairs. -/
def ellipse (r c yradius xradius : ℚ) (shape : Option (ℤ × ℤ)) :
    List (ℤ × ℤ) :=
  let upper_left0 : ℤ × ℤ := (⌈r - yradius⌉, ⌈c - xradius⌉)
  let lower_right0 : ℤ × ℤ := (⌊r + yradius⌋, ⌊c + xradius⌋)
  let upper_left : ℤ × ℤ :=
    match shape with
    | none => upper_left0
    | some _ => (max upper_left0.1 0, max upper_left0.2 0)
  let lower_right : ℤ × ℤ :=
    match shape with
    | none => lower_right0
    | some s => (min lower_right0.1 (s.1 - 1), min lower_right0.2 (s.2 - 1))
  let shifted_center : ℚ × ℚ := (r - (upper_left.1 : ℚ), c - (upper_left.2 : ℚ))
  let bounding_shape : ℤ × ℤ :=
    (lower_right.1 - upper_left.1 + 1, lower_right.2 - upper_left.2 + 1)
  (_ellipse_in_shape bounding_shape shifted_center (yradius, xradius)).map
    (fun p => (p.1 + upper_left.1, p.2 + upper_left.2))

/-- Embedding of `circle(r, c, radius, shape=None)` (source lines 90–135):
a direct delegation to `ellipse` with both radii equal. -/
def circle (r c radius : ℚ) (shape : Option (ℤ × ℤ)) : List (ℤ × ℤ) :=
  ellipse r c radius radius shape

/-! ## Membership characterization of the ellipse rasterizer -/

theorem mem_ellipse_in_shape {shape : ℤ × ℤ} {center : ℚ × ℚ}
    {radiuses : ℚ × ℚ} {p : ℤ × ℤ} :
    p ∈ _ellipse_in_shape shape center radiuses ↔
      radiuses.1 ≠ 0 ∧ radiuses.2 ≠ 0 ∧
      0 ≤ p.1 ∧ p.1 < shape.1 ∧ 0 ≤ p.2 ∧ p.2 < shape.2 ∧
      inEllipse center.1 center.2 radiuses.1 radiuses.2 p := by
  obtain ⟨p1, p2⟩ := p
  unfold _ellipse_in_shape
  by_cases h : radiuses.1 = 0 ∨ radiuses.2 = 0
  · rw [if_pos h]
    simp only [List.not_mem_nil, false_iff]
    rintro ⟨h1, h2, -⟩
    rcases h with h | h
    · exact h1 h
    · exact h2 h
  · push_neg at h
    rw [if_neg (by tauto)]
    simp only [List.mem_flatMap, List.mem_filterMap, List.mem_range]
    constructor
    · rintro ⟨i, hi, j, hj, hp⟩
      split at hp
      · rename_i hell
        obtain ⟨rfl, rfl⟩ := Prod.mk.injEq .. ▸ Option.some.inj hp
        exact ⟨h.1, h.2, by omega, by omega, by omega, by omega, hell⟩
      · exact absurd hp (by simp)
    · rintro ⟨-, -, h1, h2, h3, h4, hell⟩
      refine ⟨p1.toNat, by omega, p2.toNat, by omega, ?_⟩
      have e1 : ((p1.toNat : ℤ)) = p1 := by omega
      have e2 : ((p2.toNat : ℤ)) = p2 := by omega
      rw [e1, e2, if_pos hell]

theorem nodup_ellipse_in_shape (shape : ℤ × ℤ) (center : ℚ × ℚ)
    (radiuses : ℚ × ℚ) : (_ellipse_in_shape shape center radiuses).Nodup := by
  unfold _ellipse_in_shape
  split
  · exact List.nodup_nil
  · refine List.nodup_flatMap.mpr ⟨fun i _ => ?_, ?_⟩
    · refine List.Nodup.filterMap ?_ (List.nodup_range _)
      intro a b c hca hcb
      split at hca
      · split at hcb
        · obtain ⟨-, h2⟩ := Prod.mk.injEq .. ▸ Option.some.inj hca
          obtain ⟨-, h4⟩ := Prod.mk.injEq .. ▸ Option.some.inj hcb
          omega
        · exact absurd hcb (by simp)
      · exact absurd hca (by simp)
    · refine List.Pairwise.imp ?_ (List.pairwise_lt_range _)
      intro i j hij q hqi hqj
      simp only [List.mem_filterMap] at hqi hqj
      obtain ⟨a, -, ha⟩ := hqi
      obtain ⟨b, -, hb⟩ := hqj
      split at ha
      · split at hb
        · obtain ⟨h1, -⟩ := Prod.mk.injEq .. ▸ Option.some.inj ha
          obtain ⟨h3, -⟩ := Prod.mk.injEq .. ▸ Option.some.inj hb
          omega
        · exact absurd hb (by simp)
      · exact absurd ha (by simp)

/-- Membership in `ellipse` with no shape: the point lies in the tight
bounding box and satisfies the strict interior predicate (and both radii are
nonzero, otherwise the output is empty). -/
theorem ellipse_mem_none {r c yradius xradius : ℚ} {p : ℤ × ℤ} :
    p ∈ ellipse r c yradius xradius none ↔
      yradius ≠ 0 ∧ xradius ≠ 0 ∧
      ⌈r - yradius⌉ ≤ p.1 ∧ p.1 ≤ ⌊r + yradius⌋ ∧
      ⌈c - xradius⌉ ≤ p.2 ∧ p.2 ≤ ⌊c + xradius⌋ ∧
      inEllipse r c yradius xradius p := by
  obtain ⟨p1, p2⟩ := p
  unfold ellipse
  simp only [List.mem_map, mem_ellipse_in_shape]
  constructor
  · rintro ⟨⟨q1, q2⟩, ⟨hy, hx, h1, h2, h3, h4, hell⟩, hq⟩
    obtain ⟨rfl, rfl⟩ := Prod.mk.injEq .. ▸ hq
    refine ⟨hy, hx, by omega, by omega, by omega, by omega, ?_⟩
    have e1 : ((q1 + ⌈r - yradius⌉ : ℤ) : ℚ) - r = (q1 : ℚ) - (r - (⌈r - yradius⌉ : ℚ)) := by
      push_cast; ring
    have e2 : ((q2 + ⌈c - xradius⌉ : ℤ) : ℚ) - c = (q2 : ℚ) - (c - (⌈c - xradius⌉ : ℚ)) := by
      push_cast; ring
    unfold inEllipse at hell ⊢
    rw [e1, e2]
    exact hell
  · rintro ⟨hy, hx, h1, h2, h3, h4, hell⟩
    refine ⟨(p1 - ⌈r - yradius⌉, p2 - ⌈c - xradius⌉),
      ⟨hy, hx, by omega, by omega, by omega, by omega, ?_⟩, by simp⟩
    unfold inEllipse at hell ⊢
    have e1 : ((p1 - ⌈r - yradius⌉ : ℤ) : ℚ) - (r - (⌈r - yradius⌉ : ℚ)) = (p1 : ℚ) - r := by
      push_cast; ring
    have e2 : ((p2 - ⌈c - xradius⌉ : ℤ) : ℚ) - (c - (⌈c - xradius⌉ : ℚ)) = (p2 : ℚ) - c := by
      push_cast; ring
    rw [e1, e2]
    exact hell

/-- Membership in `ellipse` with a shape: the bounding box is clamped to
`[0, h) × [0, w)` before the grid is enumerated. -/
theorem ellipse_mem_some {r c yradius xradius : ℚ} {h w : ℤ} {p : ℤ × ℤ} :
    p ∈ ellipse r c yradius xradius (some (h, w)) ↔
      yradius ≠ 0 ∧ xradius ≠ 0 ∧
      max ⌈r - yradius⌉ 0 ≤ p.1 ∧ p.1 ≤ min ⌊r + yradius⌋ (h - 1) ∧
      max ⌈c - xradius⌉ 0 ≤ p.2 ∧ p.2 ≤ min ⌊c + xradius⌋ (w - 1) ∧
      inEllipse r c yradius xradius p := by
  obtain ⟨p1, p2⟩ := p
  unfold ellipse
  simp only [List.mem_map, mem_ellipse_in_shape]
  constructor
  · rintro ⟨⟨q1, q2⟩, ⟨hy, hx, h1, h2, h3, h4, hell⟩, hq⟩
    obtain ⟨rfl, rfl⟩ := Prod.mk.injEq .. ▸ hq
    refine ⟨hy, hx, by omega, by omega, by omega, by omega, ?_⟩
    have e1 : ((q1 + max ⌈r - yradius⌉ 0 : ℤ) : ℚ) - r
        = (q1 : ℚ) - (r - ((max ⌈r - yradius⌉ 0 : ℤ) : ℚ)) := by push_cast; ring
    have e2 : ((q2 + max ⌈c - xradius⌉ 0 : ℤ) : ℚ) - c
        = (q2 : ℚ) - (c - ((max ⌈c - xradius⌉ 0 : ℤ) : ℚ)) := by push_cast; ring
    unfold inEllipse at hell ⊢
    rw [e1, e2]
    exact hell
  · rintro ⟨hy, hx, h1, h2, h3, h4, hell⟩
    refine ⟨(p1 - max ⌈r - yradius⌉ 0, p2 - max ⌈c - xradius⌉ 0),
      ⟨hy, hx, by omega, by omega, by omega, by omega, ?_⟩, by simp⟩
    unfold inEllipse at hell ⊢
    have e1 : ((p1 - max ⌈r - yradius⌉ 0 : ℤ) : ℚ)
        - (r - ((max ⌈r - yradius⌉ 0 : ℤ) : ℚ)) = (p1 : ℚ) - r := by push_cast; ring
    have e2 : ((p2 - max ⌈c - xradius⌉ 0 : ℤ) : ℚ)
        - (c - ((max ⌈c - xradius⌉ 0 : ℤ) : ℚ)) = (p2 : ℚ) - c := by push_cast; ring
    rw [e1, e2]
    exact hell

theorem ellipse_nodup (r c yradius xradius : ℚ) (shape : Option (ℤ × ℤ)) :
    (ellipse r c yradius xradius shape).Nodup := by
  unfold ellipse
  refine List.Nodup.map ?_ (nodup_ellipse_in_shape ..)
  rintro ⟨a1, a2⟩ ⟨b1, b2⟩ hab
  obtain ⟨h1, h2⟩ := Prod.mk.injEq .. ▸ hab
  have : a1 = b1 := by omega
  have : a2 = b2 := by omega
  simp_all

/-- A point strictly inside the ellipse (positive radii) lies inside the
tight bounding box `⌈center - radii⌉ … ⌊center + radii⌋` that `ellipse`
enumerates. -/
theorem inEllipse_bounds {r c yradius xradius : ℚ} {p : ℤ × ℤ}
    (hy : 0 < yradius) (hx : 0 < xradius)
    (h : inEllipse r c yradius xradius p) :
    ⌈r - yradius⌉ ≤ p.1 ∧ p.1 ≤ ⌊r + yradius⌋ ∧
    ⌈c - xradius⌉ ≤ p.2 ∧ p.2 ≤ ⌊c + xradius⌋ := by
  unfold inEllipse at h
  have t1 : 0 ≤ (((p.1 : ℚ) - r) / yradius) ^ 2 := sq_nonneg _
  have t2 : 0 ≤ (((p.2 : ℚ) - c) / xradius) ^ 2 := sq_nonneg _
  have s1 : (((p.1 : ℚ) - r) / yradius) ^ 2 < 1 := by linarith
  have s2 : (((p.2 : ℚ) - c) / xradius) ^ 2 < 1 := by linarith
  have a1 : |((p.1 : ℚ) - r) / yradius| < 1 := (sq_lt_one_iff_abs_lt_one _).mp s1
  have a2 : |((p.2 : ℚ) - c) / xradius| < 1 := (sq_lt_one_iff_abs_lt_one _).mp s2
  rw [abs_div, abs_of_pos hy, div_lt_one hy] at a1
  rw [abs_div, abs_of_pos hx, div_lt_one hx] at a2
  obtain ⟨l1, u1⟩ := abs_lt.mp a1
  obtain ⟨l2, u2⟩ := abs_lt.mp a2
  refine ⟨Int.ceil_le.mpr ?_, Int.le_floor.mpr ?_, Int.ceil_le.mpr ?_,
    Int.le_floor.mpr ?_⟩ <;> linarith

/-- C1: with no shape supplied and positive radii, the returned coordinate
list is exactly — as an unordered duplicate-free set — the set of integer
points strictly inside the ellipse
`((row - r)/yradius)^2 + ((col - c)/xradius)^2 < 1`; boundary points
(distance exactly 1) are excluded by the strict inequality. -/
theorem ellipse_noshape_exact (r c yradius xradius : ℚ)
    (hy : 0 < yradius) (hx : 0 < xradius) :
    (∀ p : ℤ × ℤ, p ∈ ellipse r c yradius xradius none ↔
      inEllipse r c yradius xradius p) ∧
    (ellipse r c yradius xradius none).Nodup := by
  refine ⟨fun p => ?_, ellipse_nodup ..⟩
  rw [ellipse_mem_none]
  constructor
  · tauto
  · intro h
    obtain ⟨b1, b2, b3, b4⟩ := inEllipse_bounds hy hx h
    exact ⟨ne_of_gt hy, ne_of_gt hx, b1, b2, b3, b4, h⟩

theorem ellipse_noshape_exact_witness :
    (0 : ℚ) < 3 ∧ (0 : ℚ) < 4 ∧
    (((5, 5) : ℤ × ℤ) ∈ ellipse 5 5 3 4 none ↔ inEllipse 5 5 3 4 (5, 5)) ∧
    (ellipse 5 5 3 4 none).Nodup :=
  ⟨by norm_num, by norm_num,
   (ellipse_noshape_exact 5 5 3 4 (by norm_num) (by norm_num)).1 (5, 5),
   (ellipse_noshape_exact 5 5 3 4 (by norm_num) (by norm_num)).2⟩

/-- C3: with a shape supplied, every returned coordinate lies in
`[0, h) × [0, w)`, and the result equals — as a set — the no-shape result
intersected with that rectangle (the clamping of the bounding box only
shrinks it toward the valid raster area). -/
theorem ellipse_shape_clips (r c yradius xradius : ℚ) (h w : ℤ) :
    (∀ p ∈ ellipse r c yradius xradius (some (h, w)), inShapeI (h, w) p) ∧
    (∀ p : ℤ × ℤ, p ∈ ellipse r c yradius xradius (some (h, w)) ↔
      (p ∈ ellipse r c yradius xradius none ∧ inShapeI (h, w) p)) := by
  have key : ∀ p : ℤ × ℤ, p ∈ ellipse r c yradius xradius (some (h, w)) ↔
      (p ∈ ellipse r c yradius xradius none ∧ inShapeI (h, w) p) := by
    intro p
    rw [ellipse_mem_some, ellipse_mem_none]
    unfold inShapeI
    constructor
    · rintro ⟨hy, hx, h1, h2, h3, h4, hell⟩
      exact ⟨⟨hy, hx, by omega, by omega, by omega, by omega, hell⟩,
        by omega, by omega, by omega, by omega⟩
    · rintro ⟨⟨hy, hx, h1, h2, h3, h4, hell⟩, s1, s2, s3, s4⟩
      exact ⟨hy, hx, by omega, by omega, by omega, by omega, hell⟩
  exact ⟨fun p hp => ((key p).mp hp).2, key⟩

/-- C4: `circle(r, c, radius, shape)` returns output identical, element for
element, to `ellipse(r, c, radius, radius, shape)` — it is a direct
delegation. -/
theorem circle_eq_ellipse (r c radius : ℚ) (shape : Option (ℤ × ℤ)) :
    circle r c radius shape = ellipse r c radius radius shape := rfl

/-- C10: with no shape supplied the output is not restricted to
non-negative coordinates: `ellipse(0, 0, 2, 2)` contains the pixel
`(-1, 0)`, whose row is negative. -/
theorem ellipse_noshape_negative_coords :
    ((-1 : ℤ), (0 : ℤ)) ∈ ellipse 0 0 2 2 none ∧ (-1 : ℤ) < 0 := by
  refine ⟨?_, by norm_num⟩
  rw [ellipse_mem_none]
  have hc : ⌈(0 : ℚ) - 2⌉ = -2 := by
    rw [show ((0 : ℚ) - 2) = (((-2 : ℤ)) : ℚ) by norm_num, Int.ceil_intCast]
  have hf : ⌊(0 : ℚ) + 2⌋ = 2 := by
    rw [show ((0 : ℚ) + 2) = (((2 : ℤ)) : ℚ) by norm_num, Int.floor_intCast]
  refine ⟨by norm_num, by norm_num, ?_, ?_, ?_, ?_, ?_⟩
  · rw [hc]; norm_num
  · rw [hf]; norm_num
  · rw [hc]; norm_num
  · rw [hf]; norm_num
  · unfold inEllipse
    norm_num

/-! ## The Compositor: `set_color` -/

/-- A raster image buffer: `height × width` pixels, `channels` values per
pixel.  `data` gives the channel vector stored at each coordinate (the
source's `img[r, c]`); a 2D single-channel image is `channels = 1`. -/
structure Image where
  height : ℕ
  width : ℕ
  channels : ℕ
  data : ℤ × ℤ → List ℚ

/-- The alpha argument of `set_color`: a scalar broadcast to every
coordinate, or a per-coordinate sequence. -/
inductive AlphaArg where
  | scalar (a : ℚ)
  | vector (v : List ℚ)

/-- Modelled from the spec: the in-shape coordinate filter
(`skimage.draw._draw._coords_inside_image`, whose code is not under `src/`).
It keeps exactly the entries whose `(row, col)` lie in
`[0, shape.1) × [0, shape.2)`, preserving relative order and filtering the
parallel value sequence in lockstep. -/
def _coords_inside_image (coords : List (ℤ × ℤ)) (vals : List ℚ)
    (shape : ℤ × ℤ) : List ((ℤ × ℤ) × ℚ) :=
  (coords.zip vals).filter (fun pv => decide (inShapeI shape pv.1))

/-- The per-pixel blend of `set_color` (source lines 277–280):
`result = image * (1 - alpha) + color * alpha`, per channel, against the
pixel vector `orig p`. -/
def blendAt (orig : ℤ × ℤ → List ℚ) (color : List ℚ) (p : ℤ × ℤ) (a : ℚ) :
    List ℚ :=
  List.zipWith (fun v ck => v * (1 - a) + ck * a) (orig p) color

/-- Numpy fancy-index assignment `img[rr, cc] = vals`: the writes are
applied in sequence positions order, a later position overwriting an
earlier one at the same coordinate.  The written values were all computed
beforehand (against the original buffer), which `set_color` reflects by
passing precomputed values here. -/
def applyWrites (orig : ℤ × ℤ → List ℚ) :
    List ((ℤ × ℤ) × List ℚ) → (ℤ × ℤ → List ℚ)
  | [] => orig
  | w :: ws => applyWrites (fun q => if q = w.1 then w.2 else orig q) ws

/-- Embedding of `set_color(img, coords, color, alpha)` (source lines
215–280).  The source raises `ValueError` before touching the buffer when
the color length does not match the channel count, so the error branch
carries no image; on success it returns the updated buffer.  Note the
source computes `vals = img[rr, cc] * (1 - alpha)` for all surviving
coordinates against the *original* buffer and only then performs the single
fancy-index assignment. -/
def set_color (img : Image) (coords : List (ℤ × ℤ)) (color : List ℚ)
    (alpha : AlphaArg) : Except String Image :=
  if color.length = img.channels then
    let alphas : List ℚ :=
      match alpha with
      | AlphaArg.scalar a => List.replicate coords.length a
      | AlphaArg.vector v => v
    let filtered := _coords_inside_image coords alphas
      ((img.height : ℤ), (img.width : ℤ))
    let writes := filtered.map (fun pv => (pv.1, blendAt img.data color pv.1 pv.2))
    Except.ok { img with data := applyWrites img.data writes }
  else
    Except.error ("Color shape (" ++ toString color.length ++
      ") must match last image dimension (" ++ toString img.channels ++ ").")

/-- The channel vector held at `p` after a `set_color` call, `none` when the
call failed. -/
def getPixel (res : Except String Image) (p : ℤ × ℤ) : Option (List ℚ) :=
  match res with
  | Except.error _ => none
  | Except.ok im => some (im.data p)

/-! ### Write-list lemmas -/

theorem applyWrites_congr (ws : List ((ℤ × ℤ) × List ℚ))
    (orig1 orig2 : ℤ × ℤ → List ℚ) (h : ∀ q, orig1 q = orig2 q) (q : ℤ × ℤ) :
    applyWrites orig1 ws q = applyWrites orig2 ws q := by
  induction ws generalizing orig1 orig2 with
  | nil => exact h q
  | cons w ws ih =>
    unfold applyWrites
    apply ih
    intro q'
    by_cases hq : q' = w.1 <;> simp [hq, h]

theorem applyWrites_of_not_written (ws : List ((ℤ × ℤ) × List ℚ))
    (orig : ℤ × ℤ → List ℚ) (q : ℤ × ℤ) (h : ∀ w ∈ ws, w.1 ≠ q) :
    applyWrites orig ws q = orig q := by
  induction ws generalizing orig with
  | nil => rfl
  | cons w ws ih =>
    unfold applyWrites
    rw [ih _ (fun w' hw' => h w' (List.mem_cons_of_mem _ hw'))]
    rw [if_neg (fun hq => h w (List.mem_cons_self ..) hq.symm)]

theorem applyWrites_of_written (ws : List ((ℤ × ℤ) × List ℚ))
    (orig : ℤ × ℤ → List ℚ) (q : ℤ × ℤ) (v : List ℚ)
    (hmem : ∃ w ∈ ws, w.1 = q) (hval : ∀ w ∈ ws, w.1 = q → w.2 = v) :
    applyWrites orig ws q = v := by
  induction ws generalizing orig with
  | nil => obtain ⟨w, hw, -⟩ := hmem; exact absurd hw (List.not_mem_nil w)
  | cons w ws ih =>
    unfold applyWrites
    by_cases hq : ∃ w' ∈ ws, w'.1 = q
    · exact ih _ hq (fun w' hw' => hval w' (List.mem_cons_of_mem _ hw'))
    · push_neg at hq
      rw [applyWrites_of_not_written ws _ q hq]
      obtain ⟨w', hw', he⟩ := hmem
      rcases List.mem_cons.mp hw' with rfl | hmem'
      · rw [if_pos he.symm]
        exact hval w' (List.mem_cons_self ..) he
      · exact absurd he (hq w' hmem')

theorem mem_zip_replicate {α : Type} {l : List α} {p : α} (a : ℚ)
    (hp : p ∈ l) : (p, a) ∈ l.zip (List.replicate l.length a) := by
  induction l with
  | nil => exact absurd hp (List.not_mem_nil p)
  | cons x l ih =>
    rcases List.mem_cons.mp hp with rfl | hmem
    · simp [List.replicate_succ]
    · simpa [List.replicate_succ] using Or.inr (ih hmem)

theorem of_mem_zip_replicate {α : Type} {l : List α} {p : α} {a b : ℚ}
    {n : ℕ} (h : (p, b) ∈ l.zip (List.replicate n a)) : b = a := by
  have := List.of_mem_zip h
  exact List.eq_of_mem_replicate this.2

/-- The pixel written by `set_color` with a scalar alpha at an in-bounds
coordinate of the input list: the blend of `color` against the *original*
pixel value — whatever the number of duplicate occurrences of the
coordinate. -/
theorem set_color_scalar_pixel {img : Image} {coords : List (ℤ × ℤ)}
    {color : List ℚ} {a : ℚ} {p : ℤ × ℤ}
    (hc : color.length = img.channels) (hp : p ∈ coords)
    (hin : inShapeI ((img.height : ℤ), (img.width : ℤ)) p) :
    getPixel (set_color img coords color (AlphaArg.scalar a)) p =
      some (blendAt img.data color p a) := by
  unfold set_color
  rw [if_pos hc]
  dsimp only [getPixel]
  congr 1
  apply applyWrites_of_written
  · refine ⟨(p, blendAt img.data color p a), ?_, rfl⟩
    simp only [List.mem_map]
    refine ⟨(p, a), ?_, rfl⟩
    unfold _coords_inside_image
    rw [List.mem_filter]
    exact ⟨mem_zip_replicate a hp, by simpa using hin⟩
  · rintro w hw rfl
    simp only [List.mem_map] at hw
    obtain ⟨⟨q, b⟩, hqb, rfl⟩ := hw
    unfold _coords_inside_image at hqb
    rw [List.mem_filter] at hqb
    have hb : b = a := of_mem_zip_replicate hqb.1
    subst hb
    rfl

theorem applyWrites_writes_orig (ws : List ((ℤ × ℤ) × List ℚ))
    (orig : ℤ × ℤ → List ℚ) (h : ∀ w ∈ ws, w.2 = orig w.1) (q : ℤ × ℤ) :
    applyWrites orig ws q = orig q := by
  induction ws with
  | nil => rfl
  | cons w ws ih =>
    unfold applyWrites
    have hw : w.2 = orig w.1 := h w (List.mem_cons_self ..)
    rw [applyWrites_congr ws _ orig
      (fun q' => by by_cases hq : q' = w.1 <;> simp [hq, hw]) q]
    exact ih (fun w' hw' => h w' (List.mem_cons_of_mem _ hw'))

theorem zipWith_blend_one : ∀ (l m : List ℚ), l.length = m.length →
    List.zipWith (fun v ck => v * (1 - (1 : ℚ)) + ck * 1) l m = m
  | [], [], _ => rfl
  | [], _ :: _, h => by simp at h
  | _ :: _, [], h => by simp at h
  | a :: l, b :: m, h => by
    simp only [List.length_cons] at h
    simp only [List.zipWith_cons_cons]
    rw [zipWith_blend_one l m (by omega)]
    norm_num

theorem zipWith_blend_zero : ∀ (l m : List ℚ), l.length = m.length →
    List.zipWith (fun v ck => v * (1 - (0 : ℚ)) + ck * 0) l m = l
  | [], [], _ => rfl
  | [], _ :: _, h => by simp at h
  | _ :: _, [], h => by simp at h
  | a :: l, b :: m, h => by
    simp only [List.length_cons] at h
    simp only [List.zipWith_cons_cons]
    rw [zipWith_blend_zero l m (by omega)]
    norm_num

/-- C2 (counterexample): on a single-channel 1×1 image holding value `1`,
`set_color` with the coordinate `(0,0)` listed twice, `color = [0]` and
`alpha = 1/2` writes `1/2` — the blend of the second position against the
*original* pixel value — whereas sequential accumulation (the second blend
computed against the buffer already blended once) would produce `1/4`. -/
theorem set_color_duplicate_counterexample :
    getPixel (set_color ⟨1, 1, 1, fun _ => [1]⟩ [(0, 0), (0, 0)] [0]
        (AlphaArg.scalar (1/2))) (0, 0) = some [1/2] ∧
    blendAt (fun _ => blendAt (fun _ => [1]) [0] (0, 0) (1/2)) [0] (0, 0) (1/2)
      = [1/4] ∧
    ([(1 : ℚ)/2] ≠ [(1 : ℚ)/4]) := by
  refine ⟨?_, ?_, by norm_num⟩
  · rw [@set_color_scalar_pixel ⟨1, 1, 1, fun _ => [1]⟩ [(0, 0), (0, 0)] [0]
      (1/2) (0, 0) (by rfl) (List.mem_cons_self ..) (by unfold inShapeI; norm_num)]
    unfold blendAt
    simp only [List.zipWith_cons_cons, List.zipWith_nil_right]
    norm_num
  · unfold blendAt
    simp only [List.zipWith_cons_cons, List.zipWith_nil_right]
    norm_num

/-- C2 (amended): when the same in-bounds coordinate occurs at two positions
`i < j` of the input, the final value written there is the blend for
position `j` computed against the *original* pixel value, not against a
buffer modified by position `i`: all reads precede the single fancy-index
write, so with a scalar alpha the final value is a single blend against the
original buffer regardless of how often the coordinate repeats. -/
theorem set_color_duplicate_blends_original (img : Image)
    (coords : List (ℤ × ℤ)) (color : List ℚ) (a : ℚ) (p : ℤ × ℤ)
    (hc : color.length = img.channels) (hp : p ∈ coords)
    (hin : inShapeI ((img.height : ℤ), (img.width : ℤ)) p) :
    getPixel (set_color img coords color (AlphaArg.scalar a)) p =
      some (blendAt img.data color p a) :=
  set_color_scalar_pixel hc hp hin

theorem set_color_duplicate_blends_original_witness :
    getPixel (set_color ⟨1, 1, 1, fun _ => [1]⟩ [(0, 0), (0, 0)] [0]
        (AlphaArg.scalar (1/3))) (0, 0) =
      some (blendAt (fun _ => [1]) [0] (0, 0) (1/3)) :=
  set_color_duplicate_blends_original ⟨1, 1, 1, fun _ => [1]⟩
    [(0, 0), (0, 0)] [0] (1/3) (0, 0) rfl (List.mem_cons_self ..)
    (by unfold inShapeI; norm_num)

/-- C6: when the color vector's length differs from the image's channel
count (a 2D image counting as one channel), `set_color` fails with the
shape-mismatch `ValueError`; the check precedes the blend and the
fancy-index assignment, so no pixel is mutated — the error branch carries
no updated buffer. -/
theorem set_color_shape_mismatch (img : Image) (coords : List (ℤ × ℤ))
    (color : List ℚ) (alpha : AlphaArg) (h : color.length ≠ img.channels) :
    set_color img coords color alpha =
      Except.error ("Color shape (" ++ toString color.length ++
        ") must match last image dimension (" ++ toString img.channels ++ ").")
        := by
  unfold set_color
  rw [if_neg h]

theorem set_color_shape_mismatch_witness :
    ([(1 : ℚ)].length ≠ (3 : ℕ)) ∧
    set_color ⟨2, 2, 3, fun _ => [0, 0, 0]⟩ [(0, 0)] [1] (AlphaArg.scalar 1) =
      Except.error ("Color shape (" ++ toString (1 : ℕ) ++
        ") must match last image dimension (" ++ toString (3 : ℕ) ++ ").") :=
  ⟨by simp, set_color_shape_mismatch ⟨2, 2, 3, fun _ => [0, 0, 0]⟩ [(0, 0)]
    [1] (AlphaArg.scalar 1) (by simp)⟩

/-- C7: on a well-formed image, for an in-bounds duplicate-free coordinate
list and a channel-matching color, `alpha = 1` sets every addressed pixel
exactly to `color` per channel, and `alpha = 0` leaves every pixel of the
image unchanged. -/
theorem set_color_alpha_extremes (img : Image) (coords : List (ℤ × ℤ))
    (color : List ℚ)
    (hwf : ∀ q, (img.data q).length = img.channels)
    (hc : color.length = img.channels)
    (_hnd : coords.Nodup)
    (hin : ∀ p ∈ coords, inShapeI ((img.height : ℤ), (img.width : ℤ)) p) :
    (∀ p ∈ coords,
      getPixel (set_color img coords color (AlphaArg.scalar 1)) p = some color) ∧
    (∀ q : ℤ × ℤ,
      getPixel (set_color img coords color (AlphaArg.scalar 0)) q
        = some (img.data q)) := by
  constructor
  · intro p hp
    rw [set_color_scalar_pixel hc hp (hin p hp)]
    congr 1
    unfold blendAt
    exact zipWith_blend_one _ _ (by rw [hwf, hc])
  · intro q
    unfold set_color
    rw [if_pos hc]
    dsimp only [getPixel]
    congr 1
    apply applyWrites_writes_orig
    rintro w hw
    simp only [List.mem_map] at hw
    obtain ⟨⟨q', b⟩, hqb, rfl⟩ := hw
    unfold _coords_inside_image at hqb
    rw [List.mem_filter] at hqb
    have hb : b = 0 := of_mem_zip_replicate hqb.1
    subst hb
    show blendAt img.data color q' 0 = img.data q'
    unfold blendAt
    exact zipWith_blend_zero _ _ (by rw [hwf, hc])

theorem set_color_alpha_extremes_witness :
    getPixel (set_color ⟨2, 2, 1, fun _ => [5]⟩ [(0, 0), (1, 1)] [7]
        (AlphaArg.scalar 1)) (0, 0) = some [7] ∧
    getPixel (set_color ⟨2, 2, 1, fun _ => [5]⟩ [(0, 0), (1, 1)] [7]
        (AlphaArg.scalar 0)) (1, 0) = some [5] :=
  ⟨(set_color_alpha_extremes ⟨2, 2, 1, fun _ => [5]⟩ [(0, 0), (1, 1)] [7]
      (fun _ => rfl) rfl (by decide) (by decide)).1 (0, 0)
      (List.mem_cons_self ..),
   (set_color_alpha_extremes ⟨2, 2, 1, fun _ => [5]⟩ [(0, 0), (1, 1)] [7]
      (fun _ => rfl) rfl (by decide) (by decide)).2 (1, 0)⟩

/-- C8: every pixel whose coordinate is not among the in-bounds input
coordinates — in particular every pixel addressed only by out-of-bounds
coordinates — holds exactly its original value after the call, and
out-of-bounds coordinates are silently dropped: the call still succeeds
(returns a buffer, not an error). -/
theorem set_color_untouched_outside (img : Image) (coords : List (ℤ × ℤ))
    (color : List ℚ) (alpha : AlphaArg) (q : ℤ × ℤ)
    (hc : color.length = img.channels)
    (hq : ¬(q ∈ coords ∧ inShapeI ((img.height : ℤ), (img.width : ℤ)) q)) :
    getPixel (set_color img coords color alpha) q = some (img.data q) := by
  unfold set_color
  rw [if_pos hc]
  dsimp only [getPixel]
  congr 1
  apply applyWrites_of_not_written
  rintro w hw
  simp only [List.mem_map] at hw
  obtain ⟨⟨q', b⟩, hqb, rfl⟩ := hw
  unfold _coords_inside_image at hqb
  rw [List.mem_filter] at hqb
  rintro rfl
  refine hq ⟨(List.of_mem_zip hqb.1).1, by simpa using hqb.2⟩

theorem set_color_untouched_outside_witness :
    ¬(((5, 5) : ℤ × ℤ) ∈ [((5, 5) : ℤ × ℤ), (0, 0)] ∧
        inShapeI (2, 2) (5, 5)) ∧
    getPixel (set_color ⟨2, 2, 1, fun _ => [5]⟩ [(5, 5), (0, 0)] [9]
        (AlphaArg.scalar 1)) (5, 5) = some [5] :=
  ⟨by decide, set_color_untouched_outside ⟨2, 2, 1, fun _ => [5]⟩
    [(5, 5), (0, 0)] [9] (AlphaArg.scalar 1) (5, 5) rfl (by decide)⟩

/-! ## The polygon perimeter tracer -/

/-- `np.round`: round half to even. -/
def npRound (q : ℚ) : ℤ :=
  if q - ⌊q⌋ < 1/2 then ⌊q⌋
  else if 1/2 < q - ⌊q⌋ then ⌊q⌋ + 1
  else if ⌊q⌋ % 2 = 0 then ⌊q⌋ else ⌊q⌋ + 1

/-- Two pixels within one step of each other in each coordinate
(8-adjacency, allowing the zero step — junction duplicates). -/
def pixelStep (a b : ℤ × ℤ) : Prop :=
  (a.1 - b.1).natAbs ≤ 1 ∧ (a.2 - b.2).natAbs ≤ 1

/-- The concatenation of the per-edge line segments over consecutive
vertices — the loop `for i in range(len(cy) - 1)` of `polygon_perimeter`
(source lines 200–204), with the line rasterizer passed in as `line_fn`. -/
def pathOf (line_fn : ℤ → ℤ → ℤ → ℤ → List (ℤ × ℤ))
    (pts : List (ℤ × ℤ)) : List (ℤ × ℤ) :=
  (pts.zip pts.tail).flatMap (fun ab => line_fn ab.1.1 ab.1.2 ab.2.1 ab.2.2)

/-- Embedding of `polygon_perimeter(cy, cx, shape, clip)` (source lines
138–212), parametric in its two external collaborators: `clip_fn` is
`skimage._shared._geometry.polygon_clip` (clip the polygon to the box
`(min_row, min_col, max_row, max_col)` and return it closed) and `line_fn`
is `skimage.draw._draw.line` (Bresenham path between two integer points,
both endpoints inclusive); neither's code is under `src/`.  `np.min`/
`np.max` of an empty vertex sequence raise `ValueError`, modelled by the
error branch on empty input. -/
def polygon_perimeter
    (clip_fn : List ℚ → List ℚ → ℚ → ℚ → ℚ → ℚ → List ℚ × List ℚ)
    (line_fn : ℤ → ℤ → ℤ → ℤ → List (ℤ × ℤ))
    (cy cx : List ℚ) (shape : Option (ℤ × ℤ)) (clip : Bool) :
    Except String (List (ℤ × ℤ)) :=
  let go := fun (b0 b1 b2 b3 : ℚ) =>
    let cl := clip_fn cy cx b0 b1 b2 b3
    let pts := (cl.1.map npRound).zip (cl.2.map npRound)
    let path := pathOf line_fn pts
    match shape with
    | none => path
    | some s => path.filter (fun p => decide (inShapeI s p))
  if clip then
    match shape with
    | none => Except.error "Must specify clipping shape"
    | some s => Except.ok (go 0 0 ((s.1 : ℚ) - 1) ((s.2 : ℚ) - 1))
  else
    match cy, cx with
    | [], _ =>
      Except.error "zero-size array to reduction operation minimum which has no identity"
    | _ :: _, [] =>
      Except.error "zero-size array to reduction operation minimum which has no identity"
    | y0 :: ys, x0 :: xs =>
      Except.ok (go (ys.foldl min y0) (xs.foldl min x0)
        (ys.foldl max y0) (xs.foldl max x0))

/-- Modelled from the spec: the external line rasterizer
(`skimage.draw._draw.line`, code not under `src/`) produces a connected
8-connected path from `(r0, c0)` to `(r1, c1)`, both endpoints inclusive.
Modelled as the Chebyshev walk that steps one unit toward the target in
each coordinate until it arrives. -/
def lineWalk : ℕ → ℤ → ℤ → ℤ → ℤ → List (ℤ × ℤ)
  | 0, r0, c0, _, _ => [(r0, c0)]
  | n + 1, r0, c0, r1, c1 =>
    (r0, c0) :: lineWalk n (r0 + (r1 - r0).sign) (c0 + (c1 - c0).sign) r1 c1

/-- Modelled from the spec: the line rasterizer interface — the Chebyshev
walk run for exactly the Chebyshev distance between the endpoints. -/
def lineModel (r0 c0 r1 c1 : ℤ) : List (ℤ × ℤ) :=
  lineWalk (max (r1 - r0).natAbs (c1 - c0).natAbs) r0 c0 r1 c1

/-- Modelled from the spec: the external polygon clipper
(`skimage._shared._geometry.polygon_clip`, code not under `src/`) returns
the polygon clipped to the box, guaranteed closed (first vertex equals
last).  Clipping proper is not modelled: for vertex sequences already
inside the box — the only inputs it receives below — the clipper leaves
the vertices unchanged and merely appends the first vertex when the
polygon is not yet closed. -/
def polygon_clip_model (cy cx : List ℚ) (_b0 _b1 _b2 _b3 : ℚ) :
    List ℚ × List ℚ :=
  match cy, cx with
  | y0 :: ys, x0 :: xs =>
    if (y0 :: ys).getLast? = some y0 ∧ (x0 :: xs).getLast? = some x0 then
      (y0 :: ys, x0 :: xs)
    else
      (y0 :: ys ++ [y0], x0 :: xs ++ [x0])
  | _, _ => ([], [])

/-- C5: calling `polygon_perimeter` with `clip = true` and no shape fails
with the `ValueError` "Must specify clipping shape" — for *every* clipper
and line rasterizer, i.e. before any clipping, rounding or tracing is
performed — while with `clip = true` and a shape supplied the call
succeeds (that error is never raised). -/
theorem polygon_perimeter_clip_requires_shape
    (clip_fn : List ℚ → List ℚ → ℚ → ℚ → ℚ → ℚ → List ℚ × List ℚ)
    (line_fn : ℤ → ℤ → ℤ → ℤ → List (ℤ × ℤ)) (cy cx : List ℚ) :
    polygon_perimeter clip_fn line_fn cy cx none true =
      Except.error "Must specify clipping shape" ∧
    ∀ s : ℤ × ℤ, ∃ l : List (ℤ × ℤ),
      polygon_perimeter clip_fn line_fn cy cx (some s) true = Except.ok l := by
  refine ⟨rfl, fun s => ⟨_, rfl⟩⟩

/-! ### The collaborator interfaces, as stated by the spec -/

/-- The interface the spec guarantees for the external line rasterizer:
a non-empty connected path from start to end, both inclusive. -/
def LineSpec (line_fn : ℤ → ℤ → ℤ → ℤ → List (ℤ × ℤ)) : Prop :=
  ∀ r0 c0 r1 c1 : ℤ,
    line_fn r0 c0 r1 c1 ≠ [] ∧
    (line_fn r0 c0 r1 c1).head? = some (r0, c0) ∧
    (line_fn r0 c0 r1 c1).getLast? = some (r1, c1) ∧
    List.Chain' pixelStep (line_fn r0 c0 r1 c1)

/-- The interface the spec guarantees for the external polygon clipper:
equal-length output sequences forming a closed polygon (first vertex equals
last) of at least two vertices. -/
def ClipSpec
    (clip_fn : List ℚ → List ℚ → ℚ → ℚ → ℚ → ℚ → List ℚ × List ℚ) : Prop :=
  ∀ (cy cx : List ℚ) (b0 b1 b2 b3 : ℚ),
    (clip_fn cy cx b0 b1 b2 b3).1.length = (clip_fn cy cx b0 b1 b2 b3).2.length ∧
    2 ≤ (clip_fn cy cx b0 b1 b2 b3).1.length ∧
    (clip_fn cy cx b0 b1 b2 b3).1.head? = (clip_fn cy cx b0 b1 b2 b3).1.getLast? ∧
    (clip_fn cy cx b0 b1 b2 b3).2.head? = (clip_fn cy cx b0 b1 b2 b3).2.getLast?

/-! ### The Chebyshev walk satisfies the line interface -/

theorem lineWalk_ne_nil (n : ℕ) (r0 c0 r1 c1 : ℤ) :
    lineWalk n r0 c0 r1 c1 ≠ [] := by
  cases n <;> simp [lineWalk]

theorem lineWalk_head? (n : ℕ) (r0 c0 r1 c1 : ℤ) :
    (lineWalk n r0 c0 r1 c1).head? = some (r0, c0) := by
  cases n <;> simp [lineWalk]

theorem natAbs_sub_sign (a b : ℤ) :
    (b - (a + (b - a).sign)).natAbs = (b - a).natAbs - 1 := by
  rcases lt_trichotomy a b with h | h | h
  · rw [Int.sign_eq_one_of_pos (by omega)]
    omega
  · subst h
    simp
  · rw [Int.sign_eq_neg_one_of_neg (by omega)]
    omega

theorem lineWalk_getLast? :
    ∀ (n : ℕ) (r0 c0 r1 c1 : ℤ),
    max (r1 - r0).natAbs (c1 - c0).natAbs ≤ n →
    (lineWalk n r0 c0 r1 c1).getLast? = some (r1, c1) := by
  intro n
  induction n with
  | zero =>
    intro r0 c0 r1 c1 h
    have h1 : r1 = r0 := by omega
    have h2 : c1 = c0 := by omega
    subst h1
    subst h2
    rfl
  | succ n ih =>
    intro r0 c0 r1 c1 h
    have hlast := ih (r0 + (r1 - r0).sign) (c0 + (c1 - c0).sign) r1 c1 (by
      have e1 := natAbs_sub_sign r0 r1
      have e2 := natAbs_sub_sign c0 c1
      omega)
    have hne := lineWalk_ne_nil n (r0 + (r1 - r0).sign) (c0 + (c1 - c0).sign) r1 c1
    show ((r0, c0) ::
      lineWalk n (r0 + (r1 - r0).sign) (c0 + (c1 - c0).sign) r1 c1).getLast?
      = some (r1, c1)
    cases hl : lineWalk n (r0 + (r1 - r0).sign) (c0 + (c1 - c0).sign) r1 c1 with
    | nil => exact absurd hl hne
    | cons x xs =>
      rw [hl] at hlast
      rw [List.getLast?_cons_cons]
      exact hlast

theorem sign_natAbs_le_one (x : ℤ) : x.sign.natAbs ≤ 1 := by
  rcases lt_trichotomy x 0 with h | h | h
  · rw [Int.sign_eq_neg_one_of_neg h]
    decide
  · simp [h]
  · rw [Int.sign_eq_one_of_pos h]
    decide

theorem lineWalk_chain (n : ℕ) : ∀ (r0 c0 r1 c1 : ℤ),
    List.Chain' pixelStep (lineWalk n r0 c0 r1 c1) := by
  induction n with
  | zero =>
    intro r0 c0 r1 c1
    exact List.chain'_singleton _
  | succ n ih =>
    intro r0 c0 r1 c1
    show List.Chain' pixelStep ((r0, c0) ::
      lineWalk n (r0 + (r1 - r0).sign) (c0 + (c1 - c0).sign) r1 c1)
    rw [List.chain'_cons']
    refine ⟨?_, ih ..⟩
    intro y hy
    rw [lineWalk_head? ..] at hy
    obtain rfl : y = (r0 + (r1 - r0).sign, c0 + (c1 - c0).sign) := by
      simpa using hy.symm
    have s1 := sign_natAbs_le_one (r1 - r0)
    have s2 := sign_natAbs_le_one (c1 - c0)
    exact ⟨by simp only []; omega, by simp only []; omega⟩

theorem lineModel_spec : LineSpec lineModel := by
  intro r0 c0 r1 c1
  refine ⟨?_, ?_, ?_, ?_⟩
  · exact lineWalk_ne_nil _ r0 c0 r1 c1
  · exact lineWalk_head? _ r0 c0 r1 c1
  · exact lineWalk_getLast? _ r0 c0 r1 c1 le_rfl
  · exact lineWalk_chain _ r0 c0 r1 c1

/-! ### Concatenated segments form a closed connected path -/

theorem pathOf_cons (line_fn : ℤ → ℤ → ℤ → ℤ → List (ℤ × ℤ))
    (a b : ℤ × ℤ) (t : List (ℤ × ℤ)) :
    pathOf line_fn (a :: b :: t) =
      line_fn a.1 a.2 b.1 b.2 ++ pathOf line_fn (b :: t) := by
  unfold pathOf
  simp [List.zip_cons_cons]

theorem pathOf_spec (line_fn : ℤ → ℤ → ℤ → ℤ → List (ℤ × ℤ))
    (hline : LineSpec line_fn) :
    ∀ (t : List (ℤ × ℤ)) (a b : ℤ × ℤ),
    pathOf line_fn (a :: b :: t) ≠ [] ∧
    (pathOf line_fn (a :: b :: t)).head? = some a ∧
    (pathOf line_fn (a :: b :: t)).getLast? = (b :: t).getLast? ∧
    List.Chain' pixelStep (pathOf line_fn (a :: b :: t)) := by
  intro t
  induction t with
  | nil =>
    intro a b
    obtain ⟨hne, hhd, hlst, hch⟩ := hline a.1 a.2 b.1 b.2
    have e : pathOf line_fn [a, b] = line_fn a.1 a.2 b.1 b.2 ++ pathOf line_fn [b] :=
      pathOf_cons ..
    have e2 : pathOf line_fn [b] = [] := by
      unfold pathOf
      simp
    rw [e, e2, List.append_nil]
    exact ⟨hne, hhd, by rw [hlst]; rfl, hch⟩
  | cons c t ih =>
    intro a b
    obtain ⟨hne, hhd, hlst, hch⟩ := hline a.1 a.2 b.1 b.2
    obtain ⟨ihne, ihhead, ihlast, ihchain⟩ := ih b c
    rw [pathOf_cons]
    refine ⟨by simp [hne], ?_, ?_, ?_⟩
    · rw [List.head?_append_of_ne_nil _ hne, hhd]
    · rw [List.getLast?_append_of_ne_nil _ ihne, ihlast, List.getLast?_cons_cons]
    · refine List.Chain'.append hch ihchain ?_
      intro x hx y hy
      rw [hlst] at hx
      rw [ihhead] at hy
      obtain rfl : x = (b.1, b.2) := by simpa using hx.symm
      obtain rfl : y = b := by simpa using hy.symm
      exact ⟨by omega, by omega⟩

theorem zip_head? {α β : Type} (l1 : List α) (l2 : List β) (a : α) (b : β)
    (h1 : l1.head? = some a) (h2 : l2.head? = some b) :
    (l1.zip l2).head? = some (a, b) := by
  cases l1 with
  | nil => simp at h1
  | cons u t =>
    cases l2 with
    | nil => simp at h2
    | cons v s =>
      simp only [List.head?_cons, Option.some.injEq] at h1 h2
      subst h1
      subst h2
      rfl

theorem zip_getLast? {α β : Type} :
    ∀ (l1 : List α) (l2 : List β), l1.length = l2.length → l1 ≠ [] →
    ∃ x y, l1.getLast? = some x ∧ l2.getLast? = some y ∧
      (l1.zip l2).getLast? = some (x, y)
  | [], _, _, hne => absurd rfl hne
  | [a], [b], _, _ => ⟨a, b, rfl, rfl, rfl⟩
  | [a], [], h, _ => by simp at h
  | [a], _ :: _ :: _, h, _ => by simp at h
  | _ :: _ :: _, [], h, _ => by simp at h
  | _ :: _ :: t, [b], h, _ => by simp at h
  | a :: a' :: t1, b :: b' :: t2, h, _ => by
    obtain ⟨x, y, h1, h2, h3⟩ := zip_getLast? (a' :: t1) (b' :: t2)
      (by simpa using h) (by simp)
    refine ⟨x, y, ?_, ?_, ?_⟩
    · rw [List.getLast?_cons_cons]
      exact h1
    · rw [List.getLast?_cons_cons]
      exact h2
    · rw [List.zip_cons_cons, List.zip_cons_cons, List.getLast?_cons_cons,
        ← List.zip_cons_cons]
      exact h3

/-- C9 (amended): with no shape supplied (so no bounds filtering of the
output), given the collaborator guarantees of the spec — the clipper
returns a closed vertex list of length at least 2, the line rasterizer
returns non-empty connected inclusive paths — `polygon_perimeter` succeeds
on any non-empty vertex input and its output is non-empty and forms a
closed connected path: consecutive pixels are 8-adjacent (or equal, at
segment junctions) and the last pixel equals the first. -/
theorem polygon_perimeter_closed
    (clip_fn : List ℚ → List ℚ → ℚ → ℚ → ℚ → ℚ → List ℚ × List ℚ)
    (line_fn : ℤ → ℤ → ℤ → ℤ → List (ℤ × ℤ)) (cy cx : List ℚ)
    (hclip : ClipSpec clip_fn) (hline : LineSpec line_fn)
    (hcy : cy ≠ []) (hcx : cx ≠ []) :
    ∃ l : List (ℤ × ℤ),
      polygon_perimeter clip_fn line_fn cy cx none false = Except.ok l ∧
      l ≠ [] ∧ l.head? = l.getLast? ∧ List.Chain' pixelStep l := by
  have key : ∀ (b0 b1 b2 b3 : ℚ),
      let cl := clip_fn cy cx b0 b1 b2 b3
      let pts := (cl.1.map npRound).zip (cl.2.map npRound)
      pathOf line_fn pts ≠ [] ∧
      (pathOf line_fn pts).head? = (pathOf line_fn pts).getLast? ∧
      List.Chain' pixelStep (pathOf line_fn pts) := by
    intro b0 b1 b2 b3
    obtain ⟨hlen, h2, hh1, hh2⟩ := hclip cy cx b0 b1 b2 b3
    set m1 := (clip_fn cy cx b0 b1 b2 b3).1.map npRound with hm1
    set m2 := (clip_fn cy cx b0 b1 b2 b3).2.map npRound with hm2
    have hmlen : m1.length = m2.length := by
      rw [hm1, hm2, List.length_map, List.length_map, hlen]
    have hm2len : 2 ≤ m1.length := by
      rw [hm1, List.length_map]
      exact h2
    have hm1cl : m1.head? = m1.getLast? := by
      rw [hm1, List.head?_map, List.getLast?_map, hh1]
    have hm2cl : m2.head? = m2.getLast? := by
      rw [hm2, List.head?_map, List.getLast?_map, hh2]
    obtain ⟨x, y, hx, hy, hzl⟩ := zip_getLast? m1 m2 hmlen
      (by intro hnil; rw [hnil] at hm2len; simp at hm2len)
    have hhead : (m1.zip m2).head? = some (x, y) :=
      zip_head? m1 m2 x y (hm1cl.trans hx) (hm2cl.trans hy)
    have hlen2 : 2 ≤ (m1.zip m2).length := by
      rw [List.length_zip]
      omega
    show pathOf line_fn (m1.zip m2) ≠ [] ∧
      (pathOf line_fn (m1.zip m2)).head? = (pathOf line_fn (m1.zip m2)).getLast? ∧
      List.Chain' pixelStep (pathOf line_fn (m1.zip m2))
    cases hcase : m1.zip m2 with
    | nil =>
      rw [hcase] at hlen2
      simp at hlen2
    | cons p0 rest =>
      cases rest with
      | nil =>
        rw [hcase] at hlen2
        simp at hlen2
      | cons p1 pt =>
        obtain ⟨pne, phead, plast, pchain⟩ := pathOf_spec line_fn hline pt p0 p1
        rw [hcase] at hhead hzl
        have hp0 : p0 = (x, y) := by simpa using hhead
        refine ⟨pne, ?_, pchain⟩
        have hgl : (p0 :: p1 :: pt).getLast? = (p1 :: pt).getLast? :=
          List.getLast?_cons_cons
        rw [phead, plast, ← hgl, hzl, hp0]
  obtain ⟨y0, ys, hcy'⟩ := List.exists_cons_of_ne_nil hcy
  obtain ⟨x0, xs, hcx'⟩ := List.exists_cons_of_ne_nil hcx
  subst hcy'
  subst hcx'
  obtain ⟨k1, k2, k3⟩ := key (ys.foldl min y0) (xs.foldl min x0)
    (ys.foldl max y0) (xs.foldl max x0)
  exact ⟨_, rfl, k1, k2, k3⟩

/-- A trivial clipper satisfying the spec's clipper interface at every
input: it ignores its input and returns a fixed closed triangle.  Used
only to witness `polygon_perimeter_closed` at a concrete input. -/
def constClipper : List ℚ → List ℚ → ℚ → ℚ → ℚ → ℚ → List ℚ × List ℚ :=
  fun _ _ _ _ _ _ => ([0, 1, 0], [0, 2, 0])

theorem constClipper_spec : ClipSpec constClipper := by
  intro cy cx b0 b1 b2 b3
  refine ⟨rfl, ?_, rfl, rfl⟩
  show 2 ≤ ([(0 : ℚ), 1, 0]).length
  simp

theorem polygon_perimeter_closed_witness :
    ∃ l : List (ℤ × ℤ),
      polygon_perimeter constClipper lineModel [0, 1] [0, 2] none false =
        Except.ok l ∧
      l ≠ [] ∧ l.head? = l.getLast? ∧ List.Chain' pixelStep l :=
  polygon_perimeter_closed constClipper lineModel [0, 1] [0, 2]
    constClipper_spec lineModel_spec (by simp) (by simp)

theorem npRound_intCast (n : ℤ) : npRound ((n : ℚ)) = n := by
  unfold npRound
  rw [Int.floor_intCast]
  rw [if_pos (by norm_num)]

/-- C9 (counterexample): with a shape supplied, `polygon_perimeter`'s final
in-bounds filter can empty the traced path entirely: the polygon through
`(20, 20)` and `(21, 21)` on a `(10, 10)` shape succeeds with *empty*
output — the output is not always a non-empty closed path. -/
theorem polygon_perimeter_shape_empty :
    polygon_perimeter polygon_clip_model lineModel [20, 21] [20, 21]
      (some (10, 10)) false = Except.ok [] := by
  have hclipm : ∀ b0 b1 b2 b3 : ℚ,
      polygon_clip_model [20, 21] [20, 21] b0 b1 b2 b3
        = ([20, 21, 20], [20, 21, 20]) := by
    intro b0 b1 b2 b3
    dsimp only [polygon_clip_model]
    rw [if_neg]
    · rfl
    · rintro ⟨hcl, -⟩
      simp only [List.getLast?_cons_cons, List.getLast?_singleton,
        Option.some.injEq] at hcl
      norm_num at hcl
  have h20 : npRound ((20 : ℚ)) = 20 := by
    rw [show (20 : ℚ) = ((20 : ℤ) : ℚ) by norm_num]
    exact npRound_intCast 20
  have h21 : npRound ((21 : ℚ)) = 21 := by
    rw [show (21 : ℚ) = ((21 : ℤ) : ℚ) by norm_num]
    exact npRound_intCast 21
  have e1 : lineModel 20 20 21 21 = [(20, 20), (21, 21)] := by decide
  have e2 : lineModel 21 21 20 20 = [(21, 21), (20, 20)] := by decide
  unfold polygon_perimeter
  simp only [Bool.false_eq_true, if_false, hclipm, List.map_cons, List.map_nil,
    h20, h21, List.zip_cons_cons, List.zip_nil_right]
  unfold pathOf
  simp only [List.tail_cons, List.zip_cons_cons, List.zip_nil_right,
    List.flatMap_cons, List.flatMap_nil, e1, e2]
  refine congrArg Except.ok ?_
  decide

end Skimage
